import Mathlib

/-!
Verification of the lakeview incremental history cache and aggregation engine
(`src/lakeview/dashboard.py`) against its natural-language specification.

The Python source is shallowly embedded: dataframes become lists of records,
the dataframe stored in the Dash `dcc.Store` becomes a list of typed records,
pure helper functions become Lean functions, and the reactive callbacks become
functions of their inputs and the module-level state they read.
-/

namespace Lakeview

/-! ## Generic list and string helpers used by the embedding -/

/-- First-occurrence deduplication with an accumulator of already-seen
elements.  Models Python `set`/polars `unique` materialised as a list: the
claims below only ever use membership in the result, never its order. -/
def dedupAux {α : Type} [DecidableEq α] : List α → List α → List α
  | [], _ => []
  | a :: as, seen => if a ∈ seen then dedupAux as seen else a :: dedupAux as (a :: seen)

def dedupFirst {α : Type} [DecidableEq α] (l : List α) : List α := dedupAux l []

theorem mem_dedupAux {α : Type} [DecidableEq α] (a : α) :
    ∀ (l seen : List α), a ∈ dedupAux l seen ↔ a ∈ l ∧ a ∉ seen := by
  intro l
  induction l with
  | nil => simp [dedupAux]
  | cons b bs ih =>
    intro seen
    by_cases hb : b ∈ seen
    · simp only [dedupAux, if_pos hb, ih, List.mem_cons]
      constructor
      · rintro ⟨h1, h2⟩; exact ⟨Or.inr h1, h2⟩
      · rintro ⟨h1 | h1, h2⟩
        · exact absurd (h1 ▸ hb) h2
        · exact ⟨h1, h2⟩
    · simp only [dedupAux, if_neg hb, List.mem_cons, ih]
      constructor
      · rintro (rfl | ⟨h1, h2⟩)
        · exact ⟨Or.inl rfl, hb⟩
        · refine ⟨Or.inr h1, fun hs => h2 (Or.inr hs)⟩
      · rintro ⟨rfl | h1, h2⟩
        · exact Or.inl rfl
        · by_cases hab : a = b
          · exact Or.inl hab
          · exact Or.inr ⟨h1, fun hs => by
              rcases hs with h | h
              · exact hab h
              · exact h2 h⟩

theorem mem_dedupFirst {α : Type} [DecidableEq α] (a : α) (l : List α) :
    a ∈ dedupFirst l ↔ a ∈ l := by
  simp [dedupFirst, mem_dedupAux]

/-! ## Byte formatting (`format_bytes`, dashboard.py lines 50-62)

The Python function converts the byte count to `float` and repeatedly divides
by 1024.  Conversion of a nonnegative integer below `2 ^ 53` to a double is
exact, and division of a double by 1024 only shifts the exponent, so for
inputs below `2 ^ 53` every value taken by `size` is an exact dyadic rational
and the embedding over `ℚ` computes exactly the values the Python floats hold.
Python's `"%.2f"` formatting rounds half-to-even on the (here exact) value;
for a dyadic rational `x`, `x * 100` can never be half an odd integer, so the
tie case is unreachable, but it is modelled faithfully anyway. -/

def unitsList : List String := ["B", "KiB", "MiB", "GiB", "TiB"]

/-- The `while size >= 1024 and unit_index < len(units) - 1` loop: `k` is the
number of units still above the current one (initially 4); the result is the
number of divisions performed, i.e. the final `unit_index`. -/
def fbSteps : ℚ → Nat → Nat
  | _, 0 => 0
  | size, k + 1 => if 1024 ≤ size then fbSteps (size / 1024) k + 1 else 0

/-- Half-to-even rounding of a rational to an integer, the rounding mode of
Python float formatting (exact on the dyadic values arising here). -/
def roundHalfEven (x : ℚ) : ℤ :=
  let f : ℤ := ⌊x⌋
  let r : ℚ := x - f
  if r < 1 / 2 then f
  else if 1 / 2 < r then f + 1
  else if f % 2 = 0 then f else f + 1

/-- Renders a count of hundredths as a fixed two-decimal string. -/
def decStr (c : Nat) : String :=
  Nat.repr (c / 100) ++ "." ++ (if c % 100 < 10 then "0" else "") ++ Nat.repr (c % 100)

/-- Python `f"{x:.2f}"` for a nonnegative rational. -/
def twoDecimals (x : ℚ) : String :=
  decStr (roundHalfEven (x * 100)).toNat

/-- `format_bytes` (dashboard.py lines 50-62). -/
def formatBytes (n : Nat) : String :=
  if fbSteps (n : ℚ) 4 = 0 then Nat.repr n ++ " B"
  else
    twoDecimals ((n : ℚ) / 1024 ^ fbSteps (n : ℚ) 4) ++ " "
      ++ unitsList.getD (fbSteps (n : ℚ) 4) ""

/-- Modelled from the spec: the unit index described by the claim, namely the
number of times 1024 divides into `n` before the value drops below 1024,
capped at the last unit (TiB). -/
def specUnitIdx (n : Nat) : Nat :=
  if n < 1024 then 0
  else if n < 1024 ^ 2 then 1
  else if n < 1024 ^ 3 then 2
  else if n < 1024 ^ 4 then 3
  else 4

theorem roundHalfEven_intCast (m : ℤ) : roundHalfEven (m : ℚ) = m := by
  simp [roundHalfEven]

theorem fbSteps_eq (n : Nat) : fbSteps (n : ℚ) 4 = specUnitIdx n := by
  have hc : ∀ k : Nat, (1024 ≤ (n : ℚ) / 1024 ^ k ↔ 1024 ^ (k + 1) ≤ n) := by
    intro k
    rw [le_div_iff₀ (by positivity : (0 : ℚ) < 1024 ^ k), ← pow_succ']
    constructor
    · intro h; exact_mod_cast h
    · intro h; exact_mod_cast h
  have hd : ∀ k : Nat, ((n : ℚ) / 1024 ^ k) / 1024 = (n : ℚ) / 1024 ^ (k + 1) := by
    intro k; rw [div_div, ← pow_succ]
  have h0 : fbSteps (n : ℚ) 4 = fbSteps ((n : ℚ) / 1024 ^ 0) 4 := by norm_num
  rw [h0]
  simp only [fbSteps, hd, hc, specUnitIdx]
  norm_num
  split_ifs <;> omega

theorem twoDecimals_eq_int (x : ℚ) (m : ℤ) (h : x * 100 = (m : ℚ)) :
    twoDecimals x = decStr m.toNat := by
  rw [twoDecimals, h, roundHalfEven_intCast]

/-- Claim C7: `format_bytes` repeatedly divides by 1024 while at least 1024
remains and a smaller unit is available, prints the B unit without decimals
and every larger unit with exactly two decimals; `0 → "0 B"`,
`1536 → "1.50 KiB"`, `1073741824 → "1.00 GiB"`.  The general statement is
proved for byte counts below `2 ^ 53`, where Python's float arithmetic in the
source is exact and the rational embedding coincides with it. -/
theorem claim_C7 :
    (∀ n : Nat, n < 2 ^ 53 →
      formatBytes n =
        if specUnitIdx n = 0 then Nat.repr n ++ " B"
        else
          twoDecimals ((n : ℚ) / 1024 ^ specUnitIdx n) ++ " "
            ++ unitsList.getD (specUnitIdx n) "")
    ∧ formatBytes 0 = "0 B"
    ∧ formatBytes 1536 = "1.50 KiB"
    ∧ formatBytes 1073741824 = "1.00 GiB" := by
  have gen : ∀ n : Nat,
      formatBytes n =
        if specUnitIdx n = 0 then Nat.repr n ++ " B"
        else
          twoDecimals ((n : ℚ) / 1024 ^ specUnitIdx n) ++ " "
            ++ unitsList.getD (specUnitIdx n) "" := by
    intro n
    rw [formatBytes, fbSteps_eq]
  refine ⟨fun n _ => gen n, ?_, ?_, ?_⟩
  · rw [gen 0]; rfl
  · rw [gen 1536]
    have hidx : specUnitIdx 1536 = 1 := by norm_num [specUnitIdx]
    rw [hidx]
    rw [if_neg (by omega)]
    have harg : ((1536 : ℕ) : ℚ) / 1024 ^ 1 * 100 = ((150 : ℤ) : ℚ) := by norm_num
    rw [twoDecimals_eq_int _ 150 harg]
    rfl
  · rw [gen 1073741824]
    have hidx : specUnitIdx 1073741824 = 3 := by norm_num [specUnitIdx]
    rw [hidx]
    rw [if_neg (by omega)]
    have harg : ((1073741824 : ℕ) : ℚ) / 1024 ^ 3 * 100 = ((100 : ℤ) : ℚ) := by
      norm_num
    rw [twoDecimals_eq_int _ 100 harg]
    rfl

/-- Witness for the universally quantified part of C7. -/
theorem claim_C7_witness :
    (1536 : Nat) < 2 ^ 53 ∧
      formatBytes 1536 =
        if specUnitIdx 1536 = 0 then Nat.repr 1536 ++ " B"
        else
          twoDecimals ((1536 : ℚ) / 1024 ^ specUnitIdx 1536) ++ " "
            ++ unitsList.getD (specUnitIdx 1536) "" :=
  ⟨by norm_num, claim_C7.1 1536 (by norm_num)⟩

/-! ## Path handling (`os.path.commonpath` and the table-name derivation)

All character-level operations are implemented structurally over `List Char`
so proofs and witnesses can evaluate them; the core library's `String`
scanning primitives are bypassed because they do not reduce in the kernel. -/

/-- Python `str.split(sep)` for a single-character separator. -/
def splitCharAux (sep : Char) : List Char → List Char → List (List Char)
  | [], acc => [acc.reverse]
  | c :: cs, acc =>
    if c = sep then acc.reverse :: splitCharAux sep cs []
    else splitCharAux sep cs (c :: acc)

def pySplitChar (s : String) (sep : Char) : List String :=
  (splitCharAux sep s.toList []).map String.mk

/-- `s.startswith(pat)` / polars-style leading-match test. -/
def strStartsWithB (s pat : String) : Bool := pat.toList.isPrefixOf s.toList

/-- `s.endswith(pat)`. -/
def strEndsWithB (s pat : String) : Bool := pat.toList.isSuffixOf s.toList

/-- Python string comparison: lexicographic on code points. -/
def charListLtB : List Char → List Char → Bool
  | [], [] => false
  | [], _ :: _ => true
  | _ :: _, [] => false
  | a :: as, b :: bs =>
    if a.toNat < b.toNat then true
    else if b.toNat < a.toNat then false
    else charListLtB as bs

def strLtB (a b : String) : Bool := charListLtB a.toList b.toList

/-- Python list comparison (used by `min`/`max` over split path lists). -/
def listLtB : List String → List String → Bool
  | [], [] => false
  | [], _ :: _ => true
  | _ :: _, [] => false
  | a :: as, b :: bs =>
    if strLtB a b then true
    else if strLtB b a then false
    else listLtB as bs

/-- Python `min` over a nonempty list (first minimal element kept). -/
def pyMinList (s : List (List String)) : List String :=
  match s with
  | [] => []
  | x :: xs => xs.foldl (fun m y => if listLtB y m then y else m) x

/-- Python `max` over a nonempty list (first maximal element kept). -/
def pyMaxList (s : List (List String)) : List String :=
  match s with
  | [] => []
  | x :: xs => xs.foldl (fun m y => if listLtB m y then y else m) x

/-- `"/".join(components)`. -/
def joinSlash : List String → String
  | [] => ""
  | [s] => s
  | s :: rest => s ++ "/" ++ joinSlash rest

/-- The component split used by `posixpath.commonpath`: split on `/`, then
drop empty components and `"."` components. -/
def splitFilterPath (p : String) : List String :=
  (pySplitChar p '/').filter fun c => !(c == "") && !(c == ".")

/-- `posixpath.commonpath` (CPython).  `none` models the `ValueError` raised
on an empty input or on a mix of absolute and relative paths.  The common
component loop is expressed as the longest common segment of the
lexicographic `min` and `max` of the split paths, which is what the CPython
index loop computes (the loop never reads past the end of `max` because
`min ≤ max` lexicographically). -/
def commonpathQ (paths : List String) : Option String :=
  match paths with
  | [] => none
  | p :: ps =>
    if (p :: ps).all fun q => strStartsWithB q "/" == strStartsWithB p "/" then
      let split := (p :: ps).map splitFilterPath
      let s1 := pyMinList split
      let s2 := pyMaxList split
      let common := ((s1.zip s2).takeWhile fun ab => ab.1 == ab.2).map Prod.fst
      some ((if strStartsWithB p "/" then "/" else "") ++ joinSlash common)
    else none

/-- Lines 91-94 / 136-139: append a trailing `/` if missing, then prepend
`./` if the prefix does not already start with it. -/
def adjustPfx (c : String) : String :=
  let c1 := if strEndsWithB c "/" then c else c ++ "/"
  if strStartsWithB c1 "./" then c1 else "./" ++ c1

/-- Python `path.replace(prefix, "", 1)`: remove the first (leftmost)
occurrence of the pattern, anywhere in the string. -/
def replaceFirstAux (pat : List Char) : List Char → List Char
  | [] => []
  | c :: cs =>
    if pat.isPrefixOf (c :: cs) then (c :: cs).drop pat.length
    else c :: replaceFirstAux pat cs

def replaceFirst (s pat : String) : String :=
  String.mk (replaceFirstAux pat.toList s.toList)

/-- polars `str.strip_prefix`: remove the pattern only when it is a leading
match, otherwise leave the string unchanged. -/
def stripPfxStr (s pat : String) : String :=
  if pat.toList.isPrefixOf s.toList then String.mk (s.toList.drop pat.toList.length)
  else s

/-- `path.split("/")[-1]`. -/
def lastSeg (p : String) : String := (pySplitChar p '/').getLastD ""

/-- The display-name derivation of `get_all_table_info`
(dashboard.py lines 88-99): for more than one path, strip the adjusted common
prefix via `str.replace(prefix, "", 1)`; otherwise take the last path
segment of each (zero or one) path. -/
def displayNames (paths : List String) : Option (List String) :=
  if 1 < paths.length then
    match commonpathQ paths with
    | none => none
    | some c => some (paths.map fun p => replaceFirst p (adjustPfx c))
  else some (paths.map lastSeg)

/-- Modelled from the spec (§4.1): identical prefix computation, but the
adjusted common prefix is *stripped* from each path (removed only as a
leading match), which is the claim's reading of "stripping that prefix". -/
def specDisplayNames (paths : List String) : Option (List String) :=
  if 1 < paths.length then
    match commonpathQ paths with
    | none => none
    | some c => some (paths.map fun p => stripPfxStr p (adjustPfx c))
  else some (paths.map lastSeg)

theorem replaceFirst_of_leading (s pat : String)
    (h : pat.toList.isPrefixOf s.toList = true) :
    replaceFirst s pat = stripPfxStr s pat := by
  unfold replaceFirst stripPfxStr
  rw [if_pos h]
  cases hs : s.toList with
  | nil => simp [replaceFirstAux]
  | cons c cs =>
    rw [hs] at h
    have h2 : pat.data <+: c :: cs := by
      simpa [List.isPrefixOf_iff_prefix] using h
    simp [replaceFirstAux, h2]

/-- Counterexample to claim C3 as stated.  `get_all_table_info` removes the
first occurrence of the adjusted prefix anywhere in the path
(`path.replace(prefix, "", 1)`), which is not prefix *stripping*: on
`["q/./q/t1", "q/x"]` the adjusted prefix is `"./q/"`, which is not a leading
match of `"q/./q/t1"` but occurs at offset 2, so the code produces the name
`"q/t1"` while stripping the prefix would leave the path unchanged. -/
theorem claim_C3_counterexample :
    displayNames ["q/./q/t1", "q/x"] ≠ specDisplayNames ["q/./q/t1", "q/x"]
      ∧ displayNames ["q/./q/t1", "q/x"] = some ["q/t1", "q/x"]
      ∧ specDisplayNames ["q/./q/t1", "q/x"] = some ["q/./q/t1", "q/x"] := by
  refine ⟨by decide, by decide, by decide⟩

/-- Claim C3 (amended): an empty path list yields no names; a single path
yields its final segment; for more than one path the adjusted longest common
path prefix is computed and its *first occurrence* is removed from each path
(`str.replace(prefix, "", 1)`), which coincides with stripping the prefix
whenever the adjusted prefix is a leading match of every path; the claim's
concrete examples hold. -/
theorem claim_C3 :
    displayNames [] = some []
    ∧ (∀ p, displayNames [p] = some [lastSeg p])
    ∧ (∀ paths c, 1 < paths.length → commonpathQ paths = some c →
        displayNames paths = some (paths.map fun p => replaceFirst p (adjustPfx c)))
    ∧ (∀ paths c, 1 < paths.length → commonpathQ paths = some c →
        (∀ p ∈ paths, strStartsWithB p (adjustPfx c) = true) →
        displayNames paths = some (paths.map fun p => stripPfxStr p (adjustPfx c)))
    ∧ displayNames ["./a/b/t1", "./a/b/t2"] = some ["t1", "t2"]
    ∧ displayNames ["./a/b/t1"] = some ["t1"] := by
  have gen : ∀ paths c, 1 < paths.length → commonpathQ paths = some c →
      displayNames paths = some (paths.map fun p => replaceFirst p (adjustPfx c)) := by
    intro paths c hlen hcp
    simp [displayNames, hlen, hcp]
  refine ⟨by decide, ?_, gen, ?_, by decide, by decide⟩
  · intro p
    simp [displayNames, lastSeg]
  · intro paths c hlen hcp hlead
    rw [gen paths c hlen hcp]
    congr 1
    exact List.map_congr_left fun p hp => replaceFirst_of_leading p _ (hlead p hp)

/-- Witness for the quantified parts of C3 (amended): the adjusted common
prefix of the claim's example paths is a leading match of both, and both the
replace-first rule and the stripping rule produce `["t1", "t2"]`. -/
theorem claim_C3_witness :
    1 < (["./a/b/t1", "./a/b/t2"] : List String).length
    ∧ commonpathQ ["./a/b/t1", "./a/b/t2"] = some "a/b"
    ∧ displayNames ["./a/b/t1", "./a/b/t2"]
        = some ((["./a/b/t1", "./a/b/t2"] : List String).map
            fun p => replaceFirst p (adjustPfx "a/b"))
    ∧ displayNames ["./a/b/t1", "./a/b/t2"]
        = some ((["./a/b/t1", "./a/b/t2"] : List String).map
            fun p => stripPfxStr p (adjustPfx "a/b"))
    ∧ displayNames ["x"] = some [lastSeg "x"] :=
  ⟨by decide, by decide,
    claim_C3.2.2.1 ["./a/b/t1", "./a/b/t2"] "a/b" (by decide) (by decide),
    claim_C3.2.2.2.1 ["./a/b/t1", "./a/b/t2"] "a/b" (by decide) (by decide)
      (by decide),
    claim_C3.2.1 "x"⟩

/-! ## Timestamps and the store serialization boundary (C8)

`dcc.Store` holds `df.to_dicts()`; the Datetime("ms") values become Python
`datetime`s which Dash's JSON encoder renders with `isoformat()`
(`YYYY-MM-DDTHH:MM:SS` plus a 6-digit `.ffffff` microsecond part that
`isoformat` omits when the microsecond is 0).  `deserialize_dataframe`
(dashboard.py lines 65-76) re-parses the strings with `str.to_datetime()`
and truncates to millisecond precision with `cast(pl.Datetime("ms"))`.
A datetime is modelled by its civil fields at millisecond precision, which
is exactly the information rendered to and recovered from the string. -/

structure Timestamp where
  year : Nat
  month : Nat
  day : Nat
  hour : Nat
  minute : Nat
  second : Nat
  ms : Nat
deriving DecidableEq, Repr

/-- Field ranges of a valid Python `datetime` at millisecond precision. -/
def Timestamp.wf (t : Timestamp) : Prop :=
  1 ≤ t.year ∧ t.year ≤ 9999 ∧ 1 ≤ t.month ∧ t.month ≤ 12 ∧ 1 ≤ t.day ∧
    t.day ≤ 31 ∧ t.hour ≤ 23 ∧ t.minute ≤ 59 ∧ t.second ≤ 59 ∧ t.ms ≤ 999

instance (t : Timestamp) : Decidable t.wf := by
  unfold Timestamp.wf
  infer_instance

def digitChar (n : Nat) : Char := Char.ofNat (48 + n)

def pad2c (n : Nat) : List Char := [digitChar (n / 10), digitChar (n % 10)]

def pad4c (n : Nat) : List Char :=
  [digitChar (n / 1000), digitChar (n / 100 % 10), digitChar (n / 10 % 10),
    digitChar (n % 10)]

def pad6c (n : Nat) : List Char :=
  [digitChar (n / 100000), digitChar (n / 10000 % 10), digitChar (n / 1000 % 10),
    digitChar (n / 100 % 10), digitChar (n / 10 % 10), digitChar (n % 10)]

/-- `datetime.isoformat()` of a millisecond-precision instant: the fractional
part carries `ms * 1000` microseconds and is omitted when zero. -/
def isoChars (t : Timestamp) : List Char :=
  pad4c t.year ++ '-' :: pad2c t.month ++ '-' :: pad2c t.day
    ++ 'T' :: pad2c t.hour ++ ':' :: pad2c t.minute ++ ':' :: pad2c t.second
    ++ (if t.ms = 0 then [] else '.' :: pad6c (t.ms * 1000))

def serializeTs (t : Timestamp) : String := String.mk (isoChars t)

def digit? (c : Char) : Option Nat :=
  if 48 ≤ c.toNat ∧ c.toNat ≤ 57 then some (c.toNat - 48) else none

def d2 (a b : Char) : Option Nat :=
  match digit? a, digit? b with
  | some x, some y => some (x * 10 + y)
  | _, _ => none

def d4 (a b c d : Char) : Option Nat :=
  match digit? a, digit? b, digit? c, digit? d with
  | some x, some y, some z, some w => some (x * 1000 + y * 100 + z * 10 + w)
  | _, _, _, _ => none

def d6 (a b c d e f : Char) : Option Nat :=
  match digit? a, digit? b, digit? c, digit? d, digit? e, digit? f with
  | some u, some v, some x, some y, some z, some w =>
    some (u * 100000 + v * 10000 + x * 1000 + y * 100 + z * 10 + w)
  | _, _, _, _, _, _ => none

/-- ISO-8601 field extraction as performed by `str.to_datetime` on the two
shapes the encoder produces (with and without the microsecond part); the
last component is the microsecond count. -/
def parseIsoFields : List Char → Option (Nat × Nat × Nat × Nat × Nat × Nat × Nat)
  | [a1, a2, a3, a4, '-', b1, b2, '-', c1, c2, 'T',
     e1, e2, ':', f1, f2, ':', g1, g2] =>
    (match d4 a1 a2 a3 a4, d2 b1 b2, d2 c1 c2, d2 e1 e2, d2 f1 f2, d2 g1 g2 with
     | some y, some mo, some dd, some hh, some mi, some ss =>
       some (y, mo, dd, hh, mi, ss, 0)
     | _, _, _, _, _, _ => none)
  | [a1, a2, a3, a4, '-', b1, b2, '-', c1, c2, 'T',
     e1, e2, ':', f1, f2, ':', g1, g2, '.', u1, u2, u3, u4, u5, u6] =>
    (match d4 a1 a2 a3 a4, d2 b1 b2, d2 c1 c2, d2 e1 e2, d2 f1 f2, d2 g1 g2,
        d6 u1 u2 u3 u4 u5 u6 with
     | some y, some mo, some dd, some hh, some mi, some ss, some us =>
       some (y, mo, dd, hh, mi, ss, us)
     | _, _, _, _, _, _, _ => none)
  | _ => none

/-- `cast(pl.Datetime("ms"))`: microseconds are truncated to milliseconds. -/
def ofIsoFields (f : Nat × Nat × Nat × Nat × Nat × Nat × Nat) : Timestamp :=
  ⟨f.1, f.2.1, f.2.2.1, f.2.2.2.1, f.2.2.2.2.1, f.2.2.2.2.2.1,
    f.2.2.2.2.2.2 / 1000⟩

def parseTs (s : String) : Option Timestamp :=
  (parseIsoFields s.toList).map ofIsoFields

theorem digit?_digitChar (n : Nat) (h : n < 10) : digit? (digitChar n) = some n := by
  interval_cases n <;> decide

theorem d2_pad (n : Nat) (h : n < 100) :
    d2 (digitChar (n / 10)) (digitChar (n % 10)) = some n := by
  have a := digit?_digitChar (n / 10) (by omega)
  have b := digit?_digitChar (n % 10) (by omega)
  simp only [d2, a, b]
  congr 1
  omega

theorem d4_pad (n : Nat) (h : n < 10000) :
    d4 (digitChar (n / 1000)) (digitChar (n / 100 % 10)) (digitChar (n / 10 % 10))
      (digitChar (n % 10)) = some n := by
  have a := digit?_digitChar (n / 1000) (by omega)
  have b := digit?_digitChar (n / 100 % 10) (by omega)
  have c := digit?_digitChar (n / 10 % 10) (by omega)
  have d := digit?_digitChar (n % 10) (by omega)
  simp only [d4, a, b, c, d]
  congr 1
  omega

theorem d6_pad (n : Nat) (h : n < 1000000) :
    d6 (digitChar (n / 100000)) (digitChar (n / 10000 % 10))
      (digitChar (n / 1000 % 10)) (digitChar (n / 100 % 10))
      (digitChar (n / 10 % 10)) (digitChar (n % 10)) = some n := by
  have a := digit?_digitChar (n / 100000) (by omega)
  have b := digit?_digitChar (n / 10000 % 10) (by omega)
  have c := digit?_digitChar (n / 1000 % 10) (by omega)
  have d := digit?_digitChar (n / 100 % 10) (by omega)
  have e := digit?_digitChar (n / 10 % 10) (by omega)
  have f := digit?_digitChar (n % 10) (by omega)
  simp only [d6, a, b, c, d, e, f]
  congr 1
  omega

theorem parseTs_serializeTs (t : Timestamp) (h : t.wf) :
    parseTs (serializeTs t) = some t := by
  obtain ⟨hy1, hy2, hm1, hm2, hd1, hd2, hh, hmi, hs, hms⟩ := h
  have ey := d4_pad t.year (by omega)
  have emo := d2_pad t.month (by omega)
  have ed := d2_pad t.day (by omega)
  have eh := d2_pad t.hour (by omega)
  have emi := d2_pad t.minute (by omega)
  have es := d2_pad t.second (by omega)
  have hlist : (serializeTs t).toList = isoChars t := rfl
  rw [parseTs, hlist]
  by_cases hz : t.ms = 0
  · rw [isoChars, if_pos hz]
    simp only [pad4c, pad2c, List.cons_append, List.nil_append, List.append_nil]
    simp only [parseIsoFields, ey, emo, ed, eh, emi, es]
    simp only [Option.map_some', ofIsoFields]
    cases t
    simp_all
  · rw [isoChars, if_neg hz]
    have eus := d6_pad (t.ms * 1000) (by omega)
    simp only [pad4c, pad2c, pad6c, List.cons_append, List.nil_append]
    simp only [parseIsoFields, ey, emo, ed, eh, emi, es, eus]
    simp only [Option.map_some', ofIsoFields]
    have : t.ms * 1000 / 1000 = t.ms := by omega
    cases t
    simp_all

/-! ## The version-record data model

One row of the history dataframe.  `files_added`/`files_removed` are optional
(absent/null in some table fragments); a fragment lacking those columns is
represented by records carrying `none`, which is also what a diagonal concat
fills in, so a single record type covers every schema the code builds. -/

structure VRec where
  table_path : String
  table_name : String
  version : Nat
  timestamp : Timestamp
  operation : String
  total_rows : Nat
  total_bytes : Nat
  files_added : Option Nat
  files_removed : Option Nat
deriving DecidableEq, Repr

/-- A stored row of the `dcc.Store`: same fields, timestamp serialized. -/
structure DictRec where
  table_path : String
  table_name : String
  version : Nat
  timestamp : String
  operation : String
  total_rows : Nat
  total_bytes : Nat
  files_added : Option Nat
  files_removed : Option Nat
deriving DecidableEq, Repr

def recToDict (r : VRec) : DictRec :=
  ⟨r.table_path, r.table_name, r.version, serializeTs r.timestamp, r.operation,
    r.total_rows, r.total_bytes, r.files_added, r.files_removed⟩

/-- `df.to_dicts()` as stored into the `dcc.Store` (timestamps rendered by the
JSON encoder). -/
def toDicts (df : List VRec) : List DictRec := df.map recToDict

def parseDict (d : DictRec) : Option VRec :=
  (parseTs d.timestamp).map fun ts =>
    ⟨d.table_path, d.table_name, d.version, ts, d.operation, d.total_rows,
      d.total_bytes, d.files_added, d.files_removed⟩

/-- Column-wise parse of every stored record; `none` as soon as one timestamp
fails to parse, modelling the error `str.to_datetime` raises. -/
def parseAll : List DictRec → Option (List VRec)
  | [] => some []
  | d :: ds =>
    match parseDict d, parseAll ds with
    | some r, some rs => some (r :: rs)
    | _, _ => none

/-- `deserialize_dataframe` (dashboard.py lines 65-76): an empty record list
yields an empty frame; otherwise the timestamp column is re-parsed with
`str.to_datetime().cast(pl.Datetime("ms"))`. -/
def deserializeDataframe (dicts : List DictRec) : Option (List VRec) :=
  if dicts = [] then some [] else parseAll dicts

theorem parseDict_recToDict (r : VRec) (h : r.timestamp.wf) :
    parseDict (recToDict r) = some r := by
  simp only [parseDict, recToDict, parseTs_serializeTs r.timestamp h,
    Option.map_some']

/-- Claim C8: serializing a dataset whose timestamps are millisecond-precision
instants to a flat record list and reconstructing it with
`deserialize_dataframe` restores every record, in particular every timestamp,
exactly (at millisecond precision). -/
theorem claim_C8 (df : List VRec) (h : ∀ r ∈ df, r.timestamp.wf) :
    deserializeDataframe (toDicts df) = some df := by
  have main : ∀ l : List VRec, (∀ x ∈ l, x.timestamp.wf) →
      parseAll (toDicts l) = some l := by
    intro l
    induction l with
    | nil => simp [toDicts, parseAll]
    | cons a as ih =>
      intro hl
      have ha : parseDict (recToDict a) = some a :=
        parseDict_recToDict a (hl a (by simp))
      have has : parseAll (toDicts as) = some as :=
        ih fun x hx => hl x (by simp [hx])
      simp only [toDicts, List.map_cons] at *
      simp [parseAll, ha, has]
  cases df with
  | nil => simp [toDicts, deserializeDataframe]
  | cons r rs =>
    rw [deserializeDataframe, if_neg (by simp [toDicts])]
    exact main (r :: rs) h

/-- A sample well-formed record used by several witnesses. -/
def sampleTs : Timestamp := ⟨2024, 3, 15, 10, 30, 5, 123⟩

def sampleRec : VRec :=
  ⟨"./tests/data/delta/t1", "t1", 0, sampleTs, "WRITE", 10, 2048, some 1, none⟩

/-- Witness for C8 at a concrete one-record dataset. -/
theorem claim_C8_witness :
    (∀ r ∈ [sampleRec], r.timestamp.wf)
    ∧ deserializeDataframe (toDicts [sampleRec]) = some [sampleRec] :=
  ⟨by decide, claim_C8 [sampleRec] (by decide)⟩

/-! ## Summary aggregation (`create_summary_stats`, dashboard.py lines 197-214)

polars compares Datetime values as instants; for well-formed civil tuples
instant order is lexicographic field order, which `tsLeB` implements. -/

def tsFields (t : Timestamp) : List Nat :=
  [t.year, t.month, t.day, t.hour, t.minute, t.second, t.ms]

def natListLeB : List Nat → List Nat → Bool
  | [], _ => true
  | _ :: _, [] => false
  | a :: as, b :: bs =>
    if a < b then true else if b < a then false else natListLeB as bs

def tsLeB (a b : Timestamp) : Bool := natListLeB (tsFields a) (tsFields b)

theorem natListLeB_refl : ∀ l : List Nat, natListLeB l l = true := by
  intro l
  induction l with
  | nil => rfl
  | cons a as ih => simp [natListLeB, ih]

theorem natListLeB_total (l m : List Nat) :
    natListLeB l m = true ∨ natListLeB m l = true := by
  induction l generalizing m with
  | nil => left; simp [natListLeB]
  | cons a as ih =>
    cases m with
    | nil => right; simp [natListLeB]
    | cons b bs =>
      rcases Nat.lt_trichotomy a b with h | h | h
      · left; simp [natListLeB, h]
      · subst h
        rcases ih bs with h2 | h2
        · left; simp [natListLeB, h2]
        · right; simp [natListLeB, h2]
      · right; simp [natListLeB, h]

theorem natListLeB_trans (l m n : List Nat) (h1 : natListLeB l m = true)
    (h2 : natListLeB m n = true) : natListLeB l n = true := by
  induction l generalizing m n with
  | nil => simp [natListLeB]
  | cons a as ih =>
    cases m with
    | nil => simp [natListLeB] at h1
    | cons b bs =>
      cases n with
      | nil => simp [natListLeB] at h2
      | cons c cs =>
        rcases Nat.lt_trichotomy a b with hab | hab | hab
        · rcases Nat.lt_trichotomy b c with hbc | hbc | hbc
          · simp [natListLeB, hab.trans hbc]
          · subst hbc; simp [natListLeB, hab]
          · simp [natListLeB, Nat.lt_asymm hbc, hbc] at h2
        · subst hab
          rcases Nat.lt_trichotomy a c with hac | hac | hac
          · simp [natListLeB, hac]
          · subst hac
            simp only [natListLeB, lt_self_iff_false, if_false] at h1 h2 ⊢
            exact ih bs cs h1 h2
          · simp [natListLeB, Nat.lt_asymm hac, hac] at h2
        · simp [natListLeB, Nat.lt_asymm hab, hab] at h1

theorem tsLeB_refl (t : Timestamp) : tsLeB t t = true := natListLeB_refl _

theorem tsLeB_total (a b : Timestamp) : tsLeB a b = true ∨ tsLeB b a = true :=
  natListLeB_total _ _

theorem tsLeB_trans {a b c : Timestamp} (h1 : tsLeB a b = true)
    (h2 : tsLeB b c = true) : tsLeB a c = true :=
  natListLeB_trans _ _ _ h1 h2

/-- polars `max` over the timestamp column of a group. -/
def maxTs (init : Timestamp) (l : List Timestamp) : Timestamp :=
  l.foldl (fun m t => if tsLeB m t then t else m) init

theorem maxTs_mem (init : Timestamp) (l : List Timestamp) :
    maxTs init l = init ∨ maxTs init l ∈ l := by
  induction l generalizing init with
  | nil => left; rfl
  | cons b bs ih =>
    have step : maxTs init (b :: bs) = maxTs (if tsLeB init b then b else init) bs := rfl
    rw [step]
    rcases ih (if tsLeB init b then b else init) with h | h
    · by_cases hc : tsLeB init b = true
      · right; rw [h, if_pos hc]; simp
      · left; rw [h, if_neg hc]
    · right; simp [h]

theorem maxTs_ub (init : Timestamp) (l : List Timestamp) :
    tsLeB init (maxTs init l) = true ∧ ∀ x ∈ l, tsLeB x (maxTs init l) = true := by
  induction l generalizing init with
  | nil => exact ⟨tsLeB_refl init, by simp⟩
  | cons b bs ih =>
    have step : maxTs init (b :: bs) = maxTs (if tsLeB init b then b else init) bs := rfl
    obtain ⟨ih1, ih2⟩ := ih (if tsLeB init b then b else init)
    have hinit : tsLeB init (if tsLeB init b then b else init) = true := by
      by_cases hc : tsLeB init b = true
      · rw [if_pos hc]; exact hc
      · rw [if_neg hc]; exact tsLeB_refl init
    have hb : tsLeB b (if tsLeB init b then b else init) = true := by
      by_cases hc : tsLeB init b = true
      · rw [if_pos hc]; exact tsLeB_refl b
      · rw [if_neg hc]
        rcases tsLeB_total init b with h | h
        · exact absurd h hc
        · exact h
    refine ⟨?_, ?_⟩
    · rw [step]; exact tsLeB_trans hinit ih1
    · intro x hx
      rw [step]
      rcases List.mem_cons.mp hx with rfl | hx
      · exact tsLeB_trans hb ih1
      · exact ih2 x hx

theorem natMaxFold_mem (a : Nat) (l : List Nat) :
    l.foldl max a = a ∨ l.foldl max a ∈ l := by
  induction l generalizing a with
  | nil => left; rfl
  | cons b bs ih =>
    have step : (b :: bs).foldl max a = bs.foldl max (max a b) := rfl
    rw [step]
    rcases ih (max a b) with h | h
    · rcases max_choice a b with hm | hm
      · left; rw [h, hm]
      · right; rw [h, hm]; simp
    · right; simp [h]

theorem natMaxFold_ub (a : Nat) (l : List Nat) :
    a ≤ l.foldl max a ∧ ∀ x ∈ l, x ≤ l.foldl max a := by
  induction l generalizing a with
  | nil => exact ⟨le_refl a, by simp⟩
  | cons b bs ih =>
    have step : (b :: bs).foldl max a = bs.foldl max (max a b) := rfl
    obtain ⟨ih1, ih2⟩ := ih (max a b)
    refine ⟨?_, ?_⟩
    · rw [step]; exact le_trans (Nat.le_max_left a b) ih1
    · intro x hx
      rw [step]
      rcases List.mem_cons.mp hx with rfl | hx
      · exact le_trans (Nat.le_max_right a x) ih1
      · exact ih2 x hx

theorem getLastD_mem_cons {α : Type} (a : α) (l : List α) (d : α) :
    (a :: l).getLastD d ∈ a :: l := by
  induction l generalizing a d with
  | nil => simp
  | cons b bs ih =>
    rw [List.getLastD_cons]
    exact List.mem_cons_of_mem a (ih b a)

theorem le_getLastD_version :
    ∀ (l : List VRec) (d : VRec),
      l.Chain' (fun a b => a.version < b.version) →
      ∀ x ∈ l, x.version ≤ (l.getLastD d).version := by
  intro l
  induction l with
  | nil => simp
  | cons a as ih =>
    intro d hch x hx
    cases as with
    | nil =>
      rcases List.mem_cons.mp hx with rfl | hx
      · simp
      · simp at hx
    | cons b bs =>
      have hab : a.version < b.version := hch.rel_head
      have hch2 : (b :: bs).Chain' (fun p q => p.version < q.version) := hch.tail
      rw [List.getLastD_cons]
      rcases List.mem_cons.mp hx with h | hx
      · have hb := ih a hch2 b (by simp)
        rw [h]
        omega
      · exact ih a hch2 x hx

structure SummaryRow where
  version : Nat
  records : Nat
  size : Nat
  last_updated : Timestamp
deriving DecidableEq, Repr

/-- The aggregation stage of `create_summary_stats` (dashboard.py lines
197-205), viewed per group key: group the frame rows by `table_path` (frame
order preserved within a group) and reduce to `version.max()`,
`total_rows.last()`, `total_bytes.last()`, `timestamp.max()`.  `none` when no
row carries the key (the group does not exist). -/
def summaryFor (df : List VRec) (tp : String) : Option SummaryRow :=
  match df.filter fun r => r.table_path == tp with
  | [] => none
  | r0 :: rs =>
    some
      ⟨(rs.map fun r => r.version).foldl max r0.version,
        ((r0 :: rs).getLastD r0).total_rows,
        ((r0 :: rs).getLastD r0).total_bytes,
        maxTs r0.timestamp (rs.map fun r => r.timestamp)⟩

def exTs (d : Nat) : Timestamp := ⟨2024, 1, d, 0, 0, 0, 0⟩

/-- The claim's example table: versions 0..3, rows `[10, 20, 15, 40]`. -/
def exampleC4 : List VRec :=
  [⟨"t", "t", 0, exTs 1, "WRITE", 10, 100, none, none⟩,
   ⟨"t", "t", 1, exTs 2, "WRITE", 20, 200, none, none⟩,
   ⟨"t", "t", 2, exTs 3, "WRITE", 15, 300, none, none⟩,
   ⟨"t", "t", 3, exTs 4, "WRITE", 40, 400, none, none⟩]

/-- Claim C4: on a dataset whose per-table rows are ordered by (strictly)
ascending version, the summary row of a table is `max(version)`, the
`total_rows`/`total_bytes` of the record with the highest version, and the
maximum timestamp; on the example table the summary has `records = 40` and
`version = 3`. -/
theorem claim_C4 :
    (∀ (df : List VRec) (tp : String) (g : List VRec) (r : VRec),
      g = df.filter (fun x => x.table_path == tp) →
      g.Chain' (fun a b => a.version < b.version) →
      r ∈ g → (∀ x ∈ g, x.version ≤ r.version) →
      ∃ s, summaryFor df tp = some s
        ∧ s.version = r.version
        ∧ s.records = r.total_rows
        ∧ s.size = r.total_bytes
        ∧ s.last_updated ∈ g.map (fun x => x.timestamp)
        ∧ ∀ x ∈ g, tsLeB x.timestamp s.last_updated = true)
    ∧ summaryFor exampleC4 "t" = some ⟨3, 40, 400, exTs 4⟩ := by
  constructor
  · intro df tp g r hg hch hr hmax
    unfold summaryFor
    rw [← hg]
    cases g with
    | nil => exact absurd hr (by simp)
    | cons r0 rs =>
      have hL : (r0 :: rs).getLastD r0 = r := by
        have hLmem := getLastD_mem_cons r0 rs r0
        have h1 : ((r0 :: rs).getLastD r0).version ≤ r.version := hmax _ hLmem
        have h2 : r.version ≤ ((r0 :: rs).getLastD r0).version :=
          le_getLastD_version (r0 :: rs) r0 hch r hr
        have hnd : ((r0 :: rs).map fun x => x.version).Nodup := by
          have hc2 : ((r0 :: rs).map fun x => x.version).Chain' (· < ·) :=
            List.chain'_map_of_chain' (fun x : VRec => x.version)
              (fun a b hab => hab) hch
          exact (List.chain'_iff_pairwise.mp hc2).imp Nat.ne_of_lt
        exact List.inj_on_of_nodup_map hnd hLmem hr
          (show ((r0 :: rs).getLastD r0).version = r.version by omega)
      refine ⟨_, rfl, ?_, ?_, ?_, ?_, ?_⟩
      · -- version = max version
        dsimp only
        obtain ⟨ub1, ub2⟩ := natMaxFold_ub r0.version (rs.map fun x => x.version)
        have hge : r.version ≤ (rs.map fun x => x.version).foldl max r0.version := by
          rcases List.mem_cons.mp hr with rfl | hr2
          · exact ub1
          · exact ub2 _ (List.mem_map_of_mem _ hr2)
        have hle : (rs.map fun x => x.version).foldl max r0.version ≤ r.version := by
          rcases natMaxFold_mem r0.version (rs.map fun x => x.version) with h | h
          · rw [h]; exact hmax r0 (by simp)
          · obtain ⟨x, hx, hxe⟩ := List.mem_map.mp h
            rw [← hxe]; exact hmax x (by simp [hx])
        omega
      · -- records = the total_rows of the record with the highest version
        dsimp only
        rw [hL]
      · -- size = the total_bytes of the record with the highest version
        dsimp only
        rw [hL]
      · -- last_updated is one of the group's timestamps
        dsimp only
        rcases maxTs_mem r0.timestamp (rs.map fun x => x.timestamp) with h | h
        · simp [h]
        · simp only [List.map_cons, List.mem_cons]
          right
          exact h
      · -- last_updated bounds every timestamp of the group
        intro x hx
        dsimp only
        obtain ⟨ub1, ub2⟩ := maxTs_ub r0.timestamp (rs.map fun y => y.timestamp)
        rcases List.mem_cons.mp hx with rfl | hx2
        · exact ub1
        · exact ub2 _ (List.mem_map_of_mem _ hx2)
  · decide

/-- Witness for the quantified part of C4 at the example table, taking the
version-3 record as the one with the highest version. -/
theorem claim_C4_witness :
    ∃ s, summaryFor exampleC4 "t" = some s
      ∧ s.version = 3
      ∧ s.records = 40
      ∧ s.size = 400
      ∧ s.last_updated ∈ exampleC4.map (fun x => x.timestamp)
      ∧ ∀ x ∈ exampleC4, tsLeB x.timestamp s.last_updated = true := by
  have hch : exampleC4.Chain' (fun a b => a.version < b.version) := by
    simp [exampleC4, List.chain'_cons]
  have h := claim_C4.1 exampleC4 "t" exampleC4
    ⟨"t", "t", 3, exTs 4, "WRITE", 40, 400, none, none⟩
    (by decide) hch (by decide) (by decide)
  simpa using h

/-! ## Selection state (`update_checklist` / `update_selected_tables`,
dashboard.py lines 641-676 and 686-711)

Python `set` values are modelled as first-appearance-deduplicated lists; the
claims about them are stated up to membership only. -/

/-- Python `needle in hay` substring test. -/
def containsSub : List Char → List Char → Bool
  | needle, [] => needle.isPrefixOf []
  | needle, c :: t => needle.isPrefixOf (c :: t) || containsSub needle t

def lowerStr (s : String) : String := String.mk (s.toList.map Char.toLower)

/-- The case-insensitive search filter applied by both callbacks
(`if search_value: [t for t in all_tables if search_value.lower() in t.lower()]`);
`none` and the empty string are falsy and leave the list unfiltered. -/
def filterTablesBySearch (searchValue : Option String) (tables : List String) :
    List String :=
  match searchValue with
  | none => tables
  | some s =>
    if s = "" then tables
    else tables.filter fun t => containsSub (lowerStr s).toList (lowerStr t).toList

/-- `visible_selected`: the checked checkboxes (dashboard.py lines 699-703). -/
def visibleSelectedOf (checkboxValues : List Bool) (checkboxIds : List String) :
    List String :=
  ((checkboxIds.zip checkboxValues).filter fun p => p.2).map fun p => p.1

/-- `hidden_tables = set(all_tables) - set(visible_tables)` (line 705). -/
def hiddenTablesOf (allTables : List String) (searchValue : Option String) :
    List String :=
  allTables.filter fun t => decide (t ∉ filterTablesBySearch searchValue allTables)

/-- `hidden_selected` (line 707): previously selected names outside the
current filter. -/
def hiddenSelectedOf (allTables : List String) (searchValue : Option String)
    (currentSelection : List String) : List String :=
  currentSelection.filter fun t => decide (t ∈ hiddenTablesOf allTables searchValue)

/-- `list(visible_selected | hidden_selected)`. -/
def pyUnion (a b : List String) : List String := dedupFirst (a ++ b)

/-- `update_selected_tables` (dashboard.py lines 686-711). -/
def updateSelectedTables (allTables loadedTables : List String)
    (checkboxValues : List Bool) (checkboxIds : List String)
    (currentSelection : List String) (searchValue : Option String) : List String :=
  if checkboxIds = [] then loadedTables
  else
    if pyUnion (visibleSelectedOf checkboxValues checkboxIds)
        (hiddenSelectedOf allTables searchValue currentSelection) = [] then
      loadedTables
    else
      pyUnion (visibleSelectedOf checkboxValues checkboxIds)
        (hiddenSelectedOf allTables searchValue currentSelection)

/-- The checkbox list rendered by `update_checklist` (lines 641-664): one
checkbox per visible table. -/
def checklistIds (allTables : List String) (searchValue : Option String) :
    List String :=
  filterTablesBySearch searchValue allTables

/-- The `value` of each rendered checkbox: checked iff the table is in the
current selection (line 651). -/
def checklistValues (ids selected : List String) : List Bool :=
  ids.map fun t => decide (t ∈ selected)

theorem zip_self_map {α β : Type} (l : List α) (f : α → β) :
    l.zip (l.map f) = l.map fun a => (a, f a) := by
  induction l with
  | nil => rfl
  | cons a as ih => simp [ih]

theorem mem_visibleSelectedOf_checklist (V selected : List String) (t : String) :
    t ∈ visibleSelectedOf (checklistValues V selected) V ↔ t ∈ V ∧ t ∈ selected := by
  unfold visibleSelectedOf checklistValues
  rw [zip_self_map]
  simp only [List.filter_map, List.map_map, List.mem_map, List.mem_filter,
    Function.comp]
  constructor
  · rintro ⟨a, ⟨ha, hsel⟩, rfl⟩
    exact ⟨ha, by simpa using hsel⟩
  · rintro ⟨hV, hsel⟩
    exact ⟨t, ⟨hV, by simpa using hsel⟩, rfl⟩

theorem mem_pyUnion (a b : List String) (t : String) :
    t ∈ pyUnion a b ↔ t ∈ a ∨ t ∈ b := by
  simp [pyUnion, mem_dedupFirst]

/-- Claim C5: when the checked visible tables together with the preserved
hidden selections are empty and at least one table is loaded, the resulting
selection is exactly the loaded table list, hence non-empty. -/
theorem claim_C5 (allTables loadedTables : List String) (checkboxValues : List Bool)
    (checkboxIds : List String) (currentSelection : List String)
    (searchValue : Option String) (hl : loadedTables ≠ [])
    (h1 : visibleSelectedOf checkboxValues checkboxIds = [])
    (h2 : hiddenSelectedOf allTables searchValue currentSelection = []) :
    updateSelectedTables allTables loadedTables checkboxValues checkboxIds
        currentSelection searchValue = loadedTables
    ∧ updateSelectedTables allTables loadedTables checkboxValues checkboxIds
        currentSelection searchValue ≠ [] := by
  have hu : pyUnion (visibleSelectedOf checkboxValues checkboxIds)
      (hiddenSelectedOf allTables searchValue currentSelection) = [] := by
    rw [h1, h2]; rfl
  unfold updateSelectedTables
  by_cases hid : checkboxIds = []
  · rw [if_pos hid]; exact ⟨rfl, hl⟩
  · rw [if_neg hid, if_pos hu]; exact ⟨rfl, hl⟩

/-- Witness for C5: one loaded table, the only visible checkbox unchecked,
nothing hidden selected. -/
theorem claim_C5_witness :
    (["a"] : List String) ≠ []
    ∧ visibleSelectedOf [false] ["a"] = []
    ∧ hiddenSelectedOf ["a"] none [] = []
    ∧ updateSelectedTables ["a"] ["a"] [false] ["a"] [] none = ["a"]
    ∧ updateSelectedTables ["a"] ["a"] [false] ["a"] [] none ≠ [] :=
  ⟨by decide, by decide, by decide,
    (claim_C5 ["a"] ["a"] [false] ["a"] [] none (by decide) (by decide)
      (by decide)).1,
    (claim_C5 ["a"] ["a"] [false] ["a"] [] none (by decide) (by decide)
      (by decide)).2⟩

/-- Counterexample to claim C6 as stated: a filter change alone can mutate
the selection.  With tables `["a", "b"]`, loaded `["a"]`, selection `["b"]`,
changing the search text to `"z"` hides every table, the re-rendered
checklist is empty, and the callback resets the selection to the loaded
tables: `["a"]`, dropping the previously selected `"b"`. -/
theorem claim_C6_counterexample :
    updateSelectedTables ["a", "b"] ["a"]
        (checklistValues (checklistIds ["a", "b"] (some "z")) ["b"])
        (checklistIds ["a", "b"] (some "z")) ["b"] (some "z") = ["a"]
    ∧ ("b" : String) ∉ updateSelectedTables ["a", "b"] ["a"]
        (checklistValues (checklistIds ["a", "b"] (some "z")) ["b"])
        (checklistIds ["a", "b"] (some "z")) ["b"] (some "z")
    ∧ ("b" : String) ∈ (["b"] : List String) := by
  refine ⟨by decide, by decide, by decide⟩

/-- Claim C6 (amended): a filter change with no checkbox toggled preserves
the selected set, *provided* the new filter leaves at least one table
visible; the selection must also satisfy the selection-state invariants
(`selected ⊆ all`, `selected` non-empty).  When the filter hides every
table the callback receives no checkboxes and resets the selection to the
loaded tables. -/
theorem claim_C6 (allTables loadedTables selected : List String)
    (searchValue : Option String) (t : String)
    (hsub : ∀ x ∈ selected, x ∈ allTables)
    (hne : selected ≠ [])
    (hvis : checklistIds allTables searchValue ≠ []) :
    t ∈ updateSelectedTables allTables loadedTables
        (checklistValues (checklistIds allTables searchValue) selected)
        (checklistIds allTables searchValue) selected searchValue
      ↔ t ∈ selected := by
  have hA := fun x => mem_visibleSelectedOf_checklist
    (checklistIds allTables searchValue) selected x
  have hB : ∀ x, x ∈ hiddenSelectedOf allTables searchValue selected ↔
      x ∈ selected ∧ x ∈ allTables ∧ x ∉ checklistIds allTables searchValue := by
    intro x
    simp [hiddenSelectedOf, hiddenTablesOf, List.mem_filter, checklistIds,
      and_assoc]
  have hU : ∀ x, x ∈ pyUnion
      (visibleSelectedOf (checklistValues (checklistIds allTables searchValue)
        selected) (checklistIds allTables searchValue))
      (hiddenSelectedOf allTables searchValue selected) ↔ x ∈ selected := by
    intro x
    rw [mem_pyUnion, hA, hB]
    constructor
    · rintro (⟨_, h⟩ | ⟨h, _⟩) <;> exact h
    · intro h
      by_cases hv : x ∈ checklistIds allTables searchValue
      · exact Or.inl ⟨hv, h⟩
      · exact Or.inr ⟨h, hsub x h, hv⟩
  obtain ⟨t0, ht0⟩ := List.exists_mem_of_ne_nil selected hne
  have hUne : pyUnion
      (visibleSelectedOf (checklistValues (checklistIds allTables searchValue)
        selected) (checklistIds allTables searchValue))
      (hiddenSelectedOf allTables searchValue selected) ≠ [] :=
    List.ne_nil_of_mem ((hU t0).mpr ht0)
  unfold updateSelectedTables
  rw [if_neg hvis, if_neg hUne]
  exact hU t

/-- Witness for C6 (amended) at a concrete state: selection `["b"]` survives
changing the filter to `"b"` (which keeps `"b"` visible). -/
theorem claim_C6_witness :
    (∀ x ∈ (["b"] : List String), x ∈ (["a", "b"] : List String))
    ∧ (["b"] : List String) ≠ []
    ∧ checklistIds ["a", "b"] (some "b") ≠ []
    ∧ (("b" : String) ∈ updateSelectedTables ["a", "b"] ["a"]
        (checklistValues (checklistIds ["a", "b"] (some "b")) ["b"])
        (checklistIds ["a", "b"] (some "b")) ["b"] (some "b")
      ↔ ("b" : String) ∈ (["b"] : List String)) :=
  ⟨by decide, by decide, by decide,
    claim_C6 ["a", "b"] ["a"] ["b"] (some "b") "b" (by decide) (by decide)
      (by decide)⟩

/-! ## Incremental loading (`load_selected_tables`, dashboard.py lines
606-633, and `load_specific_tables`, lines 104-154)

The provider (`get_table_history_py`) is modelled as the list of per-table
record sequences it would return, passed as a parameter; the second component
of `loadSelectedTables` counts how many times the provider is invoked
(`load_specific_tables` calls it exactly once, via `get_all_table_info`).
The store round trip `deserialize_dataframe` / `to_dicts` performed on entry
and exit is the identity on the typed records (claim C8), so the dataset is
threaded through directly.  `pl.concat(..., how="diagonal")` on record lists
sharing the `VRec` schema (optional columns as `none`) is list append. -/

structure RawRec where
  table_path : String
  version : Nat
  timestamp : Timestamp
  operation : String
  total_rows : Nat
  total_bytes : Nat
  files_added : Option Nat
  files_removed : Option Nat
deriving DecidableEq, Repr

def withName (r : RawRec) (nm : String) : VRec :=
  ⟨r.table_path, nm, r.version, r.timestamp, r.operation, r.total_rows,
    r.total_bytes, r.files_added, r.files_removed⟩

/-- Lines 132-152: derive the `table_name` column of a freshly loaded frame
from its distinct `table_path` values (polars `str.strip_prefix` for several
paths, last path segment for a single one). -/
def addTableNames (records : List RawRec) : Option (List VRec) :=
  if 1 < (dedupFirst (records.map fun r => r.table_path)).length then
    match commonpathQ (dedupFirst (records.map fun r => r.table_path)) with
    | none => none
    | some c =>
      some (records.map fun r => withName r (stripPfxStr r.table_path (adjustPfx c)))
  else some (records.map fun r => withName r (lastSeg r.table_path))

/-- `dict(zip(names, paths))[k]`: on duplicate keys the last binding wins. -/
def pyLookupLast (l : List (String × String)) (k : String) : Option String :=
  (l.reverse.find? fun p => p.1 == k).map fun p => p.2

/-- `history.to_dict()[0]["table_path"]` for a non-empty history. -/
def headPath (h : List RawRec) : Option String := h.head?.map fun r => r.table_path

/-- The record-gathering loop of `load_specific_tables` (lines 110-120). -/
def gatherRecords (histories : List (List RawRec)) (names : List String)
    (tableNamesToLoad : List String) : List RawRec :=
  tableNamesToLoad.foldl
    (fun acc nm =>
      match pyLookupLast (names.zip (histories.filterMap headPath)) nm with
      | none => acc
      | some tp =>
        match histories.find? fun h => headPath h == some tp with
        | some h => acc ++ h
        | none => acc)
    []

/-- `load_specific_tables` (lines 104-154): resolve each requested display
name to its path through the freshly fetched name/path mapping, gather the
matching history's records, and attach table names.  `none` models the
`ValueError` escaping from `commonpath` on degenerate path sets. -/
def loadSpecificTables (histories : List (List RawRec))
    (tableNamesToLoad : List String) : Option (List VRec) :=
  match displayNames (histories.filterMap headPath) with
  | none => none
  | some names =>
    if gatherRecords histories names tableNamesToLoad = [] then some []
    else addTableNames (gatherRecords histories names tableNamesToLoad)

/-- `current_df["table_name"].unique().to_list()` guarded by the emptiness
and column-presence check of lines 618-620 (typed records always carry the
column, so only emptiness matters). -/
def loadedNamesOf (current : List VRec) : List String :=
  if current = [] then [] else dedupFirst (current.map fun r => r.table_name)

/-- `load_selected_tables` (lines 606-633), with an invocation count of the
HistoryProvider as second component. -/
def loadSelectedTables (histories : List (List RawRec)) (selected : List String)
    (current : List VRec) : Option (List VRec) × Nat :=
  if selected = [] then (some current, 0)
  else if selected.filter (fun t => decide (t ∉ loadedNamesOf current)) = [] then
    (some current, 0)
  else
    match loadSpecificTables histories
        (selected.filter fun t => decide (t ∉ loadedNamesOf current)) with
    | none => (none, 1)
    | some newDf =>
      if newDf = [] then (some current, 1)
      else if current = [] then (some newDf, 1)
      else (some (current ++ newDf), 1)

/-- Claim C1: loading a non-empty selection whose tables are all already in
the stored dataset issues no provider call and returns the dataset
unchanged. -/
theorem claim_C1 (histories : List (List RawRec)) (selected : List String)
    (current : List VRec) (hne : selected ≠ [])
    (hloaded : ∀ t ∈ selected, t ∈ current.map fun r => r.table_name) :
    loadSelectedTables histories selected current = (some current, 0) := by
  obtain ⟨t0, ht0⟩ := List.exists_mem_of_ne_nil selected hne
  have hcur : current ≠ [] := by
    intro h
    rw [h] at hloaded
    simpa using hloaded t0 ht0
  have hfil : selected.filter (fun t => decide (t ∉ loadedNamesOf current)) = [] := by
    rw [List.filter_eq_nil_iff]
    intro a ha
    have : a ∈ loadedNamesOf current := by
      rw [loadedNamesOf, if_neg hcur, mem_dedupFirst]
      exact hloaded a ha
    simp [this]
  unfold loadSelectedTables
  rw [if_neg hne, if_pos hfil]

/-- Witness for C1: requesting the already loaded table `"t1"` again. -/
theorem claim_C1_witness :
    ([("t1" : String)] ≠ [])
    ∧ (∀ t ∈ [("t1" : String)], t ∈ [sampleRec].map fun r => r.table_name)
    ∧ loadSelectedTables [] ["t1"] [sampleRec] = (some [sampleRec], 0) :=
  ⟨by decide, by decide, claim_C1 [] ["t1"] [sampleRec] (by decide) (by decide)⟩

/-- Claim C10: an empty (or missing, i.e. falsy) selection returns the stored
dataset exactly as it was, with no provider call and no merge. -/
theorem claim_C10 (histories : List (List RawRec)) (current : List VRec) :
    loadSelectedTables histories [] current = (some current, 0) := rfl

/-! ## Operation breakdown (`create_operation_breakdown`, dashboard.py lines
288-311)

`df.group_by(["table_name", "operation"]).agg(pl.len().alias("count"))` with
no `maintain_order` and no subsequent sort: polars guarantees no output
order.  The embedding materialises the groups in first-appearance order of
the key (the order `maintain_order=True` would give); no ordering by key is
performed anywhere. -/

def opKey (r : VRec) : String × String := (r.table_name, r.operation)

def operationBreakdown (df : List VRec) : List (String × String × Nat) :=
  (dedupFirst (df.map opKey)).map fun k =>
    (k.1, k.2, df.countP fun r => opKey r == k)

/-- The row order asserted by the claim: `table_name` ascending, then
`operation` ascending (code-point string order). -/
def rowKeyLeB (x y : String × String × Nat) : Bool :=
  strLtB x.1 y.1 || (x.1 == y.1 && (strLtB x.2.1 y.2.1 || x.2.1 == y.2.1))

def exampleC9 : List VRec :=
  [⟨"t", "b", 0, exTs 1, "WRITE", 1, 1, none, none⟩,
   ⟨"t", "a", 1, exTs 2, "WRITE", 1, 1, none, none⟩]

/-- Counterexample to claim C9 as stated: the breakdown rows are not sorted
by (table_name, operation) — on a dataset whose first record has table name
`"b"` and second `"a"`, the output keeps first-appearance order
`[("b", ...), ("a", ...)]`, which is not ascending (and the library call
guarantees no order at all). -/
theorem claim_C9_counterexample :
    operationBreakdown exampleC9 = [("b", "WRITE", 1), ("a", "WRITE", 1)]
    ∧ ¬ List.Pairwise (fun x y => rowKeyLeB x y = true)
        (operationBreakdown exampleC9) := by
  have h1 : operationBreakdown exampleC9 = [("b", "WRITE", 1), ("a", "WRITE", 1)] := by
    decide
  refine ⟨h1, ?_⟩
  intro h
  rw [h1] at h
  have h2 := (List.pairwise_cons.mp h).1 ("a", "WRITE", 1) (by decide)
  exact absurd h2 (by decide)

/-- Claim C9 (amended): the breakdown groups by (table_name, operation) with
one row per distinct key carrying the record count of that group (the keys
in first-appearance order under an order-preserving model of `group_by`; the
actual library call guarantees no row order, and no sort by table_name or
operation is applied). -/
theorem claim_C9 (df : List VRec) (x : String × String × Nat) :
    ((operationBreakdown df).map (fun y => (y.1, y.2.1)) = dedupFirst (df.map opKey))
    ∧ (x ∈ operationBreakdown df →
        x.2.2 = df.countP (fun r => opKey r == (x.1, x.2.1)) ∧ 0 < x.2.2) := by
  constructor
  · rw [operationBreakdown, List.map_map]
    have he : ∀ k ∈ dedupFirst (df.map opKey),
        ((fun y : String × String × Nat => (y.1, y.2.1)) ∘ fun k : String × String =>
          (k.1, k.2, df.countP fun r => opKey r == k)) k = k := fun k _ => rfl
    rw [List.map_congr_left he]
    simp
  · intro hx
    rw [operationBreakdown] at hx
    obtain ⟨k, hk, rfl⟩ := List.mem_map.mp hx
    refine ⟨rfl, ?_⟩
    have hk2 : k ∈ df.map opKey := (mem_dedupFirst k _).mp hk
    obtain ⟨r, hr, hrk⟩ := List.mem_map.mp hk2
    exact List.countP_pos_iff.mpr ⟨r, hr, by simp [hrk]⟩

/-- Witness for C9 (amended) on the concrete two-record dataset. -/
theorem claim_C9_witness :
    ((operationBreakdown exampleC9).map (fun y => (y.1, y.2.1))
        = dedupFirst (exampleC9.map opKey))
    ∧ ("b", "WRITE", 1) ∈ operationBreakdown exampleC9
    ∧ ((1 : Nat) = exampleC9.countP (fun r => opKey r == ("b", "WRITE"))
        ∧ (0 : Nat) < 1) :=
  ⟨(claim_C9 exampleC9 ("b", "WRITE", 1)).1, by decide,
    (claim_C9 exampleC9 ("b", "WRITE", 1)).2 (by decide)⟩

/-! ## Diagonal merge of history fragments (C2)

`load_selected_tables` merges a freshly loaded fragment into the store with
`pl.concat([current_df, new_df], how="diagonal")` (line 631), after replacing
an empty store by the fragment itself (lines 628-629).  Because fragments of
different tables can carry different column sets, the merge is modelled on a
generic frame: a column-name list plus rows of cells (`none` is the
missing-value marker).  Diagonal concat keeps the first frame's columns,
appends the other frame's unseen columns, and realigns every row over the
combined columns, filling absent columns with null. -/

inductive PVal where
  | int : Int → PVal
  | str : String → PVal
deriving DecidableEq, Repr

structure Frame where
  cols : List String
  rows : List (List (Option PVal))
deriving DecidableEq, Repr

/-- Well-formedness of a materialised polars frame: distinct column names,
rows aligned with the columns, and no columns without rows (a fragment with
no records is `pl.DataFrame()`, which has no columns either — this is what
`load_specific_tables` returns when nothing matches). -/
def Frame.wf (f : Frame) : Prop :=
  f.cols.Nodup ∧ (∀ r ∈ f.rows, r.length = f.cols.length)
    ∧ (f.rows = [] → f.cols = [])

instance (f : Frame) : Decidable f.wf := by
  unfold Frame.wf
  infer_instance

def lookupCol (cols : List String) (row : List (Option PVal)) (c : String) :
    Option PVal :=
  match (cols.zip row).find? fun p => p.1 == c with
  | some p => p.2
  | none => none

def diagCols (a b : Frame) : List String :=
  a.cols ++ b.cols.filter fun c => decide (c ∉ a.cols)

def realign (cols srcCols : List String) (row : List (Option PVal)) :
    List (Option PVal) :=
  cols.map (lookupCol srcCols row)

def diagConcat (a b : Frame) : Frame :=
  ⟨diagCols a b,
    a.rows.map (realign (diagCols a b) a.cols)
      ++ b.rows.map (realign (diagCols a b) b.cols)⟩

/-- Lines 627-631: an empty store is replaced by the fragment, otherwise the
fragment is diagonally concatenated (polars `is_empty` is `height == 0`). -/
def mergeStep (cur new : Frame) : Frame :=
  if cur.rows = [] then new else diagConcat cur new

def emptyFrame : Frame := ⟨[], []⟩

/-- One row as a record: the set of (column, cell) pairs. -/
def recordOf (cols : List String) (row : List (Option PVal)) :
    Finset (String × Option PVal) :=
  (cols.zip row).toFinset

/-- The set of records of a frame. -/
def recordSet (f : Frame) : Finset (Finset (String × Option PVal)) :=
  (f.rows.map (recordOf f.cols)).toFinset

/-- The `(table_path, version)` key of a row. -/
def rowKey (cols : List String) (row : List (Option PVal)) :
    Option PVal × Option PVal :=
  (lookupCol cols row "table_path", lookupCol cols row "version")

theorem toFinset_map' {α β : Type} [DecidableEq α] [DecidableEq β]
    (l : List α) (g : α → β) : (l.map g).toFinset = l.toFinset.image g := by
  ext x
  simp

theorem zip_eq_map_lookup :
    ∀ (srcCols : List String) (row : List (Option PVal)), srcCols.Nodup →
      row.length = srcCols.length →
      srcCols.zip row = srcCols.map fun c => (c, lookupCol srcCols row c) := by
  intro srcCols
  induction srcCols with
  | nil =>
    intro row _ hlen
    simp
  | cons c cs ih =>
    intro row hnd hlen
    cases row with
    | nil => simp at hlen
    | cons v vs =>
      have hc : lookupCol (c :: cs) (v :: vs) c = v := by
        simp [lookupCol, List.find?]
      have hcs : ∀ x ∈ cs, lookupCol (c :: cs) (v :: vs) x = lookupCol cs vs x := by
        intro x hx
        have hxc : ¬ (c == x) = true := by
          simp only [beq_iff_eq]
          intro he
          exact (List.nodup_cons.mp hnd).1 (he ▸ hx)
        simp [lookupCol, List.find?, hxc, List.zip]
      have htail : cs.zip vs = cs.map fun x => (x, lookupCol cs vs x) :=
        ih vs (List.nodup_cons.mp hnd).2 (by simpa using hlen)
      simp only [List.zip_cons_cons, List.map_cons, hc]
      rw [htail]
      congr 1
      exact (List.map_congr_left fun x hx => by rw [hcs x hx]).symm

theorem recordOf_realign (C srcCols : List String) (row : List (Option PVal)) :
    recordOf C (realign C srcCols row)
      = C.toFinset.image fun c => (c, lookupCol srcCols row c) := by
  rw [recordOf, realign, zip_self_map, toFinset_map']

theorem recordOf_raw (srcCols : List String) (row : List (Option PVal))
    (hnd : srcCols.Nodup) (hlen : row.length = srcCols.length) :
    recordOf srcCols row
      = srcCols.toFinset.image fun c => (c, lookupCol srcCols row c) := by
  rw [recordOf, zip_eq_map_lookup srcCols row hnd hlen, toFinset_map']

theorem diagCols_toFinset (X Y : Frame) :
    (diagCols X Y).toFinset = X.cols.toFinset ∪ Y.cols.toFinset := by
  ext c
  simp [diagCols]
  tauto

theorem recordSet_diagConcat (X Y : Frame) :
    recordSet (diagConcat X Y)
      = (X.rows.map fun r => (X.cols.toFinset ∪ Y.cols.toFinset).image
          fun c => (c, lookupCol X.cols r c)).toFinset
        ∪ (Y.rows.map fun r => (X.cols.toFinset ∪ Y.cols.toFinset).image
            fun c => (c, lookupCol Y.cols r c)).toFinset := by
  rw [recordSet]
  show ((X.rows.map (realign (diagCols X Y) X.cols)
      ++ Y.rows.map (realign (diagCols X Y) Y.cols)).map
        (recordOf (diagCols X Y))).toFinset = _
  rw [List.map_append, List.map_map, List.map_map, List.toFinset_append]
  congr 1
  · refine congrArg List.toFinset (List.map_congr_left ?_)
    intro r _
    show recordOf (diagCols X Y) (realign (diagCols X Y) X.cols r) = _
    rw [recordOf_realign, diagCols_toFinset]
  · refine congrArg List.toFinset (List.map_congr_left ?_)
    intro r _
    show recordOf (diagCols X Y) (realign (diagCols X Y) Y.cols r) = _
    rw [recordOf_realign, diagCols_toFinset]

theorem recordSet_of_wf (X : Frame) (h : X.wf) :
    recordSet X = (X.rows.map fun r => X.cols.toFinset.image
      fun c => (c, lookupCol X.cols r c)).toFinset := by
  rw [recordSet]
  refine congrArg List.toFinset (List.map_congr_left ?_)
  intro r hr
  exact recordOf_raw X.cols r h.1 (h.2.1 r hr)

/-- Claim C2: for two well-formed history fragments with no
`(table_path, version)` key in common, merging A into the empty dataset and
then B yields the same set of records (absent columns filled with the
missing-value marker) as merging B first and then A. -/
theorem claim_C2 (A B : Frame) (hA : A.wf) (hB : B.wf)
    (_hdisj : ∀ ra ∈ A.rows, ∀ rb ∈ B.rows,
      rowKey A.cols ra ≠ rowKey B.cols rb) :
    recordSet (mergeStep (mergeStep emptyFrame A) B)
      = recordSet (mergeStep (mergeStep emptyFrame B) A) := by
  have hstep : ∀ X : Frame, mergeStep emptyFrame X = X := fun X => rfl
  rw [hstep, hstep]
  by_cases hAr : A.rows = []
  · have hAc : A.cols = [] := hA.2.2 hAr
    by_cases hBr : B.rows = []
    · rw [mergeStep, if_pos hAr, mergeStep, if_pos hBr]
      rw [recordSet, recordSet, hAr, hBr]
      rfl
    · rw [mergeStep, if_pos hAr, mergeStep, if_neg hBr]
      rw [recordSet_diagConcat, recordSet_of_wf B hB, hAr, hAc]
      simp
  · by_cases hBr : B.rows = []
    · have hBc : B.cols = [] := hB.2.2 hBr
      rw [mergeStep, if_neg hAr, mergeStep, if_pos hBr]
      rw [recordSet_diagConcat, recordSet_of_wf A hA, hBr, hBc]
      simp
    · rw [mergeStep, if_neg hAr, mergeStep, if_neg hBr]
      rw [recordSet_diagConcat, recordSet_diagConcat]
      rw [Finset.union_comm B.cols.toFinset A.cols.toFinset]
      exact Finset.union_comm _ _

def frameA : Frame :=
  ⟨["table_path", "version", "total_rows"],
    [[some (PVal.str "a"), some (PVal.int 0), some (PVal.int 10)]]⟩

def frameB : Frame :=
  ⟨["table_path", "version", "files_added"],
    [[some (PVal.str "b"), some (PVal.int 0), some (PVal.int 1)]]⟩

/-- Witness for C2: two one-row fragments of different tables with different
column sets merge to the same record set in either order. -/
theorem claim_C2_witness :
    frameA.wf ∧ frameB.wf
    ∧ (∀ ra ∈ frameA.rows, ∀ rb ∈ frameB.rows,
        rowKey frameA.cols ra ≠ rowKey frameB.cols rb)
    ∧ recordSet (mergeStep (mergeStep emptyFrame frameA) frameB)
        = recordSet (mergeStep (mergeStep emptyFrame frameB) frameA) :=
  ⟨by decide, by decide, by decide,
    claim_C2 frameA frameB (by decide) (by decide) (by decide)⟩

end Lakeview
